import Mathlib

/-!
Verification of the block-level math-fence state machine of goldmark-mathjax
(`block.go`): the `Open`, `Continue` and `Close` transitions of
`mathJaxBlockParser`, together with the two embedded fence-scanning loops.

Bytes of a source line are modelled as `List Char`; goldmark segments as
`Segment` records of absolute offsets; the per-parse context holds at most the
one key `mathBlockInfoKey`, modelled as an `Option MathBlockData`.

The goldmark helpers `util.IsBlank`, `util.IndentWidth` and
`util.DedentPosition` belong to the external host library and are not part of
this repository's sources; they are modelled from the spec where noted.
-/

namespace Mathjax

/-- A goldmark text segment: absolute start / stop offsets into the source
buffer plus a count of virtual leading spaces (`text.Segment`). -/
structure Segment where
  start : Nat
  stop : Nat
  padding : Nat
deriving DecidableEq

/-- The per-block state stored at `mathBlockInfoKey` (`mathBlockData` in
`block.go`): the column of the opening fence. -/
structure MathBlockData where
  indent : Nat
deriving DecidableEq

/-- The goldmark `parser.State` values returned by the transitions of
`block.go`: `parser.Close`, `parser.NoChildren`,
`parser.Continue | parser.NoChildren`. -/
inductive PState where
  | close
  | noChildren
  | continueNoChildren
deriving DecidableEq

/-- Modelled from the spec: `util.IsSpace` of the external host library; a
character counts as blank content ("whitespace/end-of-line", spec 4.1). -/
def isSpace (c : Char) : Bool :=
  c = ' ' || c = '\t' || c = '\n' || c = '\r' || c = Char.ofNat 11 || c = Char.ofNat 12

/-- Modelled from the spec: `util.IsBlank` of the external host library; a
byte sequence is blank when it consists only of whitespace (spec 4.1). -/
def isBlank (l : List Char) : Bool := l.all isSpace

/-- Length of the maximal run of `'$'` at the head of the list. -/
def dollarRun : List Char → Nat
  | [] => 0
  | c :: rest => if c = '$' then dollarRun rest + 1 else 0

/-- The inner run loop of `block.go` (`for k < len && line[k] == '$' : k++`):
the first index at or after `i` that does not carry a fence character. -/
def runEnd (l : List Char) (i : Nat) : Nat := i + dollarRun (l.drop i)

/-- Modelled from the spec: `util.IndentWidth` of the external host library.
Walks the leading whitespace of a line, counting columns (tab stops of four
relative to the current column) and bytes consumed. -/
def indentWidthAux (cp : Nat) : List Char → Nat → Nat → Nat × Nat
  | [], w, p => (w, p)
  | c :: rest, w, p =>
    if c = ' ' then indentWidthAux cp rest (w + 1) (p + 1)
    else if c = '\t' then indentWidthAux cp rest (w + (4 - (cp + w) % 4)) (p + 1)
    else (w, p)

/-- Modelled from the spec: the line's leading-indentation width and the index
of its first non-space byte (spec 4.3 step 2). -/
def IndentWidth (line : List Char) (cp : Nat) : Nat × Nat :=
  indentWidthAux cp line 0 0

/-- Modelled from the spec: `util.DedentPosition` of the external host
library. Strips up to `width` columns of leading indentation from the line,
returning the index of the first kept byte and the padding of synthetic
spaces (spec 3, 4.3, 8). -/
def dedentAux (cp width : Nat) : List Char → Nat → Nat → Nat × Nat
  | [], w, p => if width ≤ w then (p, w - width) else (p, width - w)
  | c :: rest, w, p =>
    if width ≤ w then (p, w - width)
    else if c = ' ' then dedentAux cp width rest (w + 1) (p + 1)
    else if c = '\t' then dedentAux cp width rest (w + (4 - (cp + w) % 4)) (p + 1)
    else (p, width - w)

/-- Modelled from the spec: dedent a continuation line against the block's
recorded baseline (spec 4.3 steps 3 and 4). -/
def DedentPosition (line : List Char) (cp width : Nat) : Nat × Nat :=
  if width = 0 then (0, 0) else dedentAux cp width line 0 0

/-- The fence-scanning loop of `Open` (`block.go` lines 47-62), over the
remainder after the opening run.  The loop guard is `j < len-1`; each
iteration either succeeds at `j`, steps to `j+1`, or skips past the rejected
run to `runEnd l j`.  Since the position strictly advances, the loop performs
at most `len + 1` iterations; the `fuel` argument is that iteration budget
(see `fence_scan_total`). -/
def scanLoopO : Nat → List Char → Nat → Option Nat
  | 0, _, _ => none
  | fuel + 1, l, j =>
    if h : j + 1 < l.length then
      if l.get ⟨j, by omega⟩ = '$' then
        if 2 ≤ runEnd l j - j ∧ isBlank (l.drop (runEnd l j)) = true then some j
        else scanLoopO fuel l (runEnd l j)
      else scanLoopO fuel l (j + 1)
    else none

/-- The fence-scanning loop of `Continue` (`block.go` lines 117-132), over the
whole line; transcribed separately from `scanLoopO` because the source
duplicates the loop. -/
def scanLoopC : Nat → List Char → Nat → Option Nat
  | 0, _, _ => none
  | fuel + 1, l, j =>
    if h : j + 1 < l.length then
      if l.get ⟨j, by omega⟩ = '$' then
        if 2 ≤ runEnd l j - j ∧ isBlank (l.drop (runEnd l j)) = true then some j
        else scanLoopC fuel l (runEnd l j)
      else scanLoopC fuel l (j + 1)
    else none

/-- The same-line closing-fence search of `Open`, with the sufficient
iteration budget `len + 1`. -/
def scanOpen (l : List Char) (j : Nat) : Option Nat := scanLoopO (l.length + 1) l j

/-- The closing-fence search of `Continue`, with the sufficient iteration
budget `len + 1`. -/
def scanContinue (l : List Char) (j : Nat) : Option Nat := scanLoopC (l.length + 1) l j

/-- `mathJaxBlockParser.Open` (`block.go` lines 25-89).  `line`/`seg` are the
result of `reader.PeekLine()`, `pos` is `pc.BlockOffset()` (`-1` when no
block may open here), `ctx` is the value at `mathBlockInfoKey`.  Returns the
node's appended spans (`none` when no node is created), the parser state, and
the context value after the call. -/
def Open (line : List Char) (seg : Segment) (pos : Int) (ctx : Option MathBlockData) :
    Option (List Segment) × PState × Option MathBlockData :=
  if pos = -1 then (none, PState.noChildren, ctx)
  else if (line.length : Int) ≤ pos ∨ line.getD pos.toNat ' ' ≠ '$' then
    (none, PState.noChildren, ctx)
  else
    let p := pos.toNat
    let i := runEnd line p
    if i - p < 2 then (none, PState.noChildren, ctx)
    else
      let remainingLine := line.drop i
      let closingPos : Int :=
        match scanOpen remainingLine 0 with
        | some cp => (cp : Int)
        | none => -1
      if 0 < closingPos then
        (some (if 0 < (remainingLine.take closingPos.toNat).length then
                 [⟨seg.start + i, seg.start + i + closingPos.toNat, 0⟩]
               else []),
         PState.close, ctx)
      else
        (some (if 0 < remainingLine.length ∧ ¬ isBlank remainingLine = true then
                 [⟨seg.start + i, seg.stop, 0⟩]
               else []),
         PState.noChildren, some ⟨p⟩)

/-- The result of `mathJaxBlockParser.Continue`: the parser state, the node's
span list after the call, how far the reader was advanced, the padding set by
`AdvanceAndSetPadding` (if used), and the context value after the call. -/
structure ContinueResult where
  state : PState
  lines : List Segment
  advance : Nat
  setPadding : Option Nat
  ctx : Option MathBlockData
deriving DecidableEq

/-- `mathJaxBlockParser.Continue` (`block.go` lines 91-153).  `node` is the
node's current span list, `line`/`seg` the peeked line, `ctx` the value at
`mathBlockInfoKey`. -/
def Continue (node : List Segment) (line : List Char) (seg : Segment)
    (ctx : Option MathBlockData) : ContinueResult :=
  match ctx with
  | none => ⟨PState.close, node, 0, none, none⟩
  | some data =>
    if (IndentWidth line 0).1 < 4 ∧
       2 ≤ runEnd line (IndentWidth line 0).2 - (IndentWidth line 0).2 ∧
       isBlank (line.drop (runEnd line (IndentWidth line 0).2)) = true then
      ⟨PState.close, node, seg.stop - seg.start - seg.padding, none, some data⟩
    else
      let closingPos : Int :=
        match scanContinue line 0 with
        | some cp => (cp : Int)
        | none => -1
      if 0 ≤ closingPos then
        let dpos := (DedentPosition line 0 data.indent).1
        let dpad := (DedentPosition line 0 data.indent).2
        ⟨PState.close,
         if (dpos : Int) < closingPos then
           node ++ [⟨seg.start + dpos, seg.start + closingPos.toNat, dpad⟩]
         else node,
         seg.stop - seg.start - seg.padding, none, some data⟩
      else
        let dpos := (DedentPosition line 0 data.indent).1
        let dpad := (DedentPosition line 0 data.indent).2
        ⟨PState.continueNoChildren,
         node ++ [⟨seg.start + dpos, seg.stop, dpad⟩],
         seg.stop - seg.start - dpos - 1, some dpad, some data⟩

/-- `mathJaxBlockParser.Close` (`block.go` lines 155-157): stores `nil` at
`mathBlockInfoKey`, i.e. the per-block state becomes absent. -/
def Close (_ctx : Option MathBlockData) : Option MathBlockData := none

/-- A position carrying a valid closing/opening fence: a fence character whose
maximal run has length at least two and whose remainder is blank. -/
def goodRun (l : List Char) (q : Nat) : Prop :=
  l[q]? = some '$' ∧ q + 2 ≤ runEnd l q ∧ isBlank (l.drop (runEnd l q)) = true

instance (l : List Char) (q : Nat) : Decidable (goodRun l q) := by
  unfold goodRun; infer_instance

/-! ### Helper lemmas about runs and the scanning loops -/

lemma dollarRun_le (l : List Char) : dollarRun l ≤ l.length := by
  induction l with
  | nil => simp [dollarRun]
  | cons c rest ih =>
    by_cases h : c = '$'
    · simp [dollarRun, h]
      omega
    · simp [dollarRun, h]

lemma runEnd_ge (l : List Char) (i : Nat) : i ≤ runEnd l i := Nat.le_add_right _ _

lemma runEnd_le (l : List Char) (i : Nat) (h : i ≤ l.length) : runEnd l i ≤ l.length := by
  have h1 := dollarRun_le (l.drop i)
  rw [List.length_drop] at h1
  rw [runEnd]
  omega

lemma dollar_at_of_lt_runEnd (l : List Char) (j : Nat) (h : j < runEnd l j) :
    j < l.length ∧ l[j]? = some '$' := by
  rw [runEnd] at h
  have h1 : 1 ≤ dollarRun (l.drop j) := by omega
  have hj : j < l.length := by
    by_contra hge
    rw [List.drop_eq_nil_of_le (by omega)] at h1
    simp [dollarRun] at h1
  have hd := List.drop_eq_getElem_cons hj
  by_cases hc : l[j] = '$'
  · exact ⟨hj, by rw [List.getElem?_eq_getElem hj, hc]⟩
  · rw [hd] at h1
    simp [dollarRun, hc] at h1

lemma runEnd_succ (l : List Char) (i : Nat) (h : i < l.length) (hc : l[i]? = some '$') :
    runEnd l i = runEnd l (i + 1) := by
  have hd : l.drop i = l[i] :: l.drop (i + 1) := List.drop_eq_getElem_cons h
  have hce : l[i] = '$' := by
    rw [List.getElem?_eq_getElem h] at hc
    exact Option.some.inj hc
  rw [runEnd, runEnd, hd]
  simp [dollarRun, hce]
  omega

lemma runEnd_pos (l : List Char) (i : Nat) (h : i < l.length) (hc : l[i]? = some '$') :
    i + 1 ≤ runEnd l i := by
  rw [runEnd_succ l i h hc]
  exact runEnd_ge l (i + 1)

lemma inRun (l : List Char) :
    ∀ d j q, q = j + d → q < runEnd l j → l[q]? = some '$' ∧ runEnd l q = runEnd l j := by
  intro d
  induction d with
  | zero =>
    intro j q hq hlt
    have hq0 : q = j := by omega
    subst hq0
    exact ⟨(dollar_at_of_lt_runEnd l q hlt).2, rfl⟩
  | succ d ih =>
    intro j q hq hlt
    have hj : j < runEnd l j := by omega
    obtain ⟨hjl, hjc⟩ := dollar_at_of_lt_runEnd l j hj
    have hre := runEnd_succ l j hjl hjc
    have hstep := ih (j + 1) q (by omega) (by omega)
    exact ⟨hstep.1, by rw [hstep.2, hre]⟩

lemma blank_drop_dollar (l : List Char) (k m : Nat) (hb : isBlank (l.drop k) = true)
    (hkm : k ≤ m) (hc : l[m]? = some '$') : False := by
  have heq : l[m]? = (l.drop k)[m - k]? := by
    rw [List.getElem?_drop]
    congr 1
    omega
  rw [heq] at hc
  obtain ⟨hlt, hget⟩ := List.getElem?_eq_some.mp hc
  have hmem : '$' ∈ l.drop k := by
    rw [← hget]
    exact List.getElem_mem hlt
  have := (List.all_eq_true.mp hb) '$' hmem
  simp [isSpace] at this

lemma scanLoopO_stable (l : List Char) :
    ∀ f₁ j f₂, l.length + 1 ≤ j + f₁ → l.length + 1 ≤ j + f₂ →
      scanLoopO f₁ l j = scanLoopO f₂ l j := by
  intro f₁
  induction f₁ with
  | zero =>
    intro j f₂ h1 h2
    have hj : ¬ j + 1 < l.length := by omega
    cases f₂ with
    | zero => rfl
    | succ g => simp [scanLoopO, hj]
  | succ f ih =>
    intro j f₂ h1 h2
    by_cases hj : j + 1 < l.length
    · cases f₂ with
      | zero => exfalso; omega
      | succ g =>
        simp only [scanLoopO, dif_pos hj]
        by_cases hc : l.get ⟨j, by omega⟩ = '$'
        · simp only [if_pos hc]
          by_cases ha : 2 ≤ runEnd l j - j ∧ isBlank (l.drop (runEnd l j)) = true
          · simp only [if_pos ha]
          · simp only [if_neg ha]
            have hcq : l[j]? = some '$' := by
              rw [List.getElem?_eq_getElem (show j < l.length by omega)]
              exact congrArg some hc
            have hk := runEnd_pos l j (by omega) hcq
            exact ih (runEnd l j) g (by omega) (by omega)
        · simp only [if_neg hc]
          exact ih (j + 1) g (by omega) (by omega)
    · cases f₂ with
      | zero => simp [scanLoopO, hj]
      | succ g => simp [scanLoopO, hj]

lemma scanLoopO_some (l : List Char) (p : Nat) (hp : goodRun l p)
    (hbef : ∀ q, q < p → ¬ goodRun l q) :
    ∀ f j, l.length + 1 ≤ j + f → j ≤ p → scanLoopO f l j = some p := by
  obtain ⟨hp1, hp2, hp3⟩ := hp
  have hplen : p < l.length := (List.getElem?_eq_some.mp hp1).1
  have hre : runEnd l p ≤ l.length := runEnd_le l p (by omega)
  intro f
  induction f with
  | zero =>
    intro j h1 h2
    exfalso
    omega
  | succ f ih =>
    intro j h1 h2
    have hj : j + 1 < l.length := by omega
    simp only [scanLoopO, dif_pos hj]
    by_cases hc : l.get ⟨j, by omega⟩ = '$'
    · have hcq : l[j]? = some '$' := by
        rw [List.getElem?_eq_getElem (show j < l.length by omega)]
        exact congrArg some hc
      have hgej := runEnd_ge l j
      by_cases ha : 2 ≤ runEnd l j - j ∧ isBlank (l.drop (runEnd l j)) = true
      · simp only [if_pos hc, if_pos ha]
        rcases Nat.lt_or_ge j p with hlt | hge
        · exact absurd ⟨hcq, by omega, ha.2⟩ (hbef j hlt)
        · have hjp : j = p := by omega
          rw [hjp]
      · simp only [if_pos hc, if_neg ha]
        have hjp : j < p := by
          rcases Nat.lt_or_ge j p with hlt | hge
          · exact hlt
          · exfalso
            have hje : j = p := by omega
            subst hje
            exact ha ⟨by omega, hp3⟩
        have hk : runEnd l j ≤ p := by
          by_contra hgt
          push_neg at hgt
          have hpin := inRun l (p - j) j p (by omega) (by omega)
          exact ha ⟨by omega, by rw [← hpin.2]; exact hp3⟩
        have hkpos := runEnd_pos l j (by omega) hcq
        exact ih (runEnd l j) (by omega) hk
    · simp only [if_neg hc]
      have hjp : j ≠ p := by
        intro he
        subst he
        apply hc
        rw [List.getElem?_eq_getElem (show j < l.length by omega)] at hp1
        exact Option.some.inj hp1
      exact ih (j + 1) (by omega) (by omega)

lemma scanOpen_append_fence (C : List Char) (hne : C ≠ [])
    (hlast : C[C.length - 1]? ≠ some '$') :
    scanOpen (C ++ ['$', '$']) 0 = some C.length := by
  have hCpos : 0 < C.length := List.length_pos.mpr hne
  have hLlen : (C ++ ['$', '$']).length = C.length + 2 := by simp
  have hgood : goodRun (C ++ ['$', '$']) C.length := by
    have hget : (C ++ ['$', '$'])[C.length]? = some '$' := by
      rw [List.getElem?_append_right (le_refl _)]
      simp
    have hdrop : (C ++ ['$', '$']).drop C.length = ['$', '$'] := List.drop_left C _
    have hrun : runEnd (C ++ ['$', '$']) C.length = C.length + 2 := by
      rw [runEnd, hdrop]
      rfl
    refine ⟨hget, by omega, ?_⟩
    rw [hrun, List.drop_eq_nil_of_le (by omega)]
    rfl
  have hbef : ∀ q, q < C.length → ¬ goodRun (C ++ ['$', '$']) q := by
    rintro q hq ⟨h1, h2, h3⟩
    have hrle : runEnd (C ++ ['$', '$']) q ≤ C.length + 2 := by
      have := runEnd_le (C ++ ['$', '$']) q (by omega)
      omega
    have hdollar : (C ++ ['$', '$'])[C.length + 1]? = some '$' := by
      rw [List.getElem?_append_right (by omega)]
      simp
    have hrge : C.length + 2 ≤ runEnd (C ++ ['$', '$']) q := by
      by_contra hlt
      push_neg at hlt
      rcases Nat.lt_or_ge (C.length + 1) (runEnd (C ++ ['$', '$']) q) with hin | hout
      · omega
      · exact blank_drop_dollar (C ++ ['$', '$']) (runEnd (C ++ ['$', '$']) q)
          (C.length + 1) h3 hout hdollar
    have hin := inRun (C ++ ['$', '$']) (C.length - 1 - q) q (C.length - 1)
      (by omega) (by omega)
    apply hlast
    rw [← @List.getElem?_append_left _ C ['$', '$'] (C.length - 1) (by omega)]
    exact hin.1
  rw [scanOpen]
  exact scanLoopO_some (C ++ ['$', '$']) C.length hgood hbef _ 0 (by omega) (by omega)

/-! ### Claim theorems -/

/-- Claim C1, counterexample: on the input line `$$$$` at entry column 0,
`Open` does not return a completed (terminal) node as the claim states: the
whole result is a node with no spans in state `NoChildren` (block left open,
per-block state recorded), and `NoChildren` is not the terminal `Close`
state. -/
theorem open_dollar4_cex :
    Open ['$', '$', '$', '$'] ⟨0, 4, 0⟩ 0 none =
      (some [], PState.noChildren, some ⟨0⟩) ∧
    PState.noChildren ≠ PState.close := by
  exact ⟨by decide, by decide⟩

/-- Claim C1 (amended): for the input `$$$$` at entry column 0 the opening
fence-run count consumes all four `$`, no same-line closing fence remains, and
`Open` classifies the block as multi-line with an empty payload: it returns an
open (`NoChildren`) node containing no spans and records the per-block state
with indent 0, so this block does consume further lines. -/
theorem open_dollar4_multiline :
    Open ['$', '$', '$', '$'] ⟨0, 4, 0⟩ 0 none =
      (some [], PState.noChildren, some ⟨0⟩) := by
  decide

/-- Claim C4: if the per-block state is absent when `Continue` is invoked,
`Continue` reports the block closed immediately, with the node's span list
unchanged and the reader not advanced. -/
theorem continue_absent_state (node : List Segment) (line : List Char) (seg : Segment) :
    Continue node line seg none = ⟨PState.close, node, 0, none, none⟩ := rfl

/-- Claim C5: `Open` returns "not applicable" (no node created, state
`NoChildren`, context unchanged) when the entry column is invalid (`-1`), lies
at or past the end of the line, or the character there is not `'$'`; the
witness instantiates this on both lines of the regression input `*foo\n  `. -/
theorem open_not_applicable (line : List Char) (seg : Segment) (pos : Int)
    (ctx : Option MathBlockData)
    (h : pos = -1 ∨ (line.length : Int) ≤ pos ∨ line.getD pos.toNat ' ' ≠ '$') :
    Open line seg pos ctx = (none, PState.noChildren, ctx) := by
  by_cases h1 : pos = -1
  · simp [Open, h1]
  · rcases h with h | h | h
    · exact absurd h h1
    · simp only [Open]
      rw [if_neg h1, if_pos (Or.inl h)]
    · simp only [Open]
      rw [if_neg h1, if_pos (Or.inr h)]

theorem open_not_applicable_witness :
    Open ['*', 'f', 'o', 'o', '\n'] ⟨0, 5, 0⟩ 0 none = (none, PState.noChildren, none) ∧
    Open [' ', ' '] ⟨5, 7, 0⟩ (-1) none = (none, PState.noChildren, none) :=
  ⟨open_not_applicable ['*', 'f', 'o', 'o', '\n'] ⟨0, 5, 0⟩ 0 none
      (Or.inr (Or.inr (by decide))),
   open_not_applicable [' ', ' '] ⟨5, 7, 0⟩ (-1) none (Or.inl rfl)⟩

/-- Claim C6: during `Continue` (with state present), when the line's
leading-indentation width is less than 4 and the first non-space characters
form a run of at least two fence characters followed only by blank content,
the block closes: the line's content is not appended and the reader advances
past the line. -/
theorem continue_close_at_start (node : List Segment) (line : List Char) (seg : Segment)
    (data : MathBlockData)
    (h1 : (IndentWidth line 0).1 < 4)
    (h2 : 2 ≤ runEnd line (IndentWidth line 0).2 - (IndentWidth line 0).2)
    (h3 : isBlank (line.drop (runEnd line (IndentWidth line 0).2)) = true) :
    Continue node line seg (some data) =
      ⟨PState.close, node, seg.stop - seg.start - seg.padding, none, some data⟩ := by
  simp only [Continue]
  rw [if_pos ⟨h1, h2, h3⟩]

theorem continue_close_at_start_witness :
    Continue [] ['$', '$'] ⟨0, 2, 0⟩ (some ⟨0⟩) =
      ⟨PState.close, [], 2, none, some ⟨0⟩⟩ :=
  continue_close_at_start [] ['$', '$'] ⟨0, 2, 0⟩ ⟨0⟩ (by decide) (by decide) (by decide)

/-- Claim C8: the fence scan over a line is total for every finite input:
any iteration budget reaching past the line yields the same scan result (the
loop halts before exhausting its budget), and the scan position strictly
advances past every examined fence run, so no position is ever revisited. -/
theorem fence_scan_total :
    (∀ (l : List Char) (j f₁ f₂ : Nat), l.length + 1 ≤ j + f₁ → l.length + 1 ≤ j + f₂ →
      scanLoopO f₁ l j = scanLoopO f₂ l j) ∧
    (∀ (l : List Char) (j : Nat), l[j]? = some '$' → j + 1 ≤ runEnd l j) :=
  ⟨fun l j f₁ f₂ h1 h2 => scanLoopO_stable l f₁ j f₂ h1 h2,
   fun l j hc => by
    obtain ⟨hlt, _⟩ := List.getElem?_eq_some.mp hc
    exact runEnd_pos l j hlt hc⟩

theorem fence_scan_total_witness :
    scanLoopO 7 ['a', 'b', '$', '$'] 0 = scanLoopO 9 ['a', 'b', '$', '$'] 0 ∧
    2 + 1 ≤ runEnd ['a', 'b', '$', '$'] 2 :=
  ⟨fence_scan_total.1 ['a', 'b', '$', '$'] 0 7 9 (by decide) (by decide),
   fence_scan_total.2 ['a', 'b', '$', '$'] 2 (by decide)⟩

/-- Claim C9: `Close` clears the per-block state (the key becomes absent), so
a subsequent `Continue` seeing the cleared context stops immediately. -/
theorem close_clears_state (ctx : Option MathBlockData) (node : List Segment)
    (line : List Char) (seg : Segment) :
    Close ctx = none ∧
    Continue node line seg (Close ctx) = ⟨PState.close, node, 0, none, none⟩ :=
  ⟨rfl, rfl⟩

/-- Claim C10: the fence-scanning loop embedded in `Open` and the
fence-scanning loop embedded in `Continue` compute the same function: on the
same byte sequence and start position they report the same closing position
(or both report not found). -/
theorem scan_loops_agree : ∀ (l : List Char) (j : Nat), scanOpen l j = scanContinue l j := by
  have h : ∀ f (l : List Char) (j : Nat), scanLoopO f l j = scanLoopC f l j := by
    intro f
    induction f with
    | zero => intro l j; rfl
    | succ f ih =>
      intro l j
      by_cases hj : j + 1 < l.length
      · simp only [scanLoopO, scanLoopC, dif_pos hj]
        by_cases hc : l.get ⟨j, by omega⟩ = '$'
        · simp only [if_pos hc]
          by_cases ha : 2 ≤ runEnd l j - j ∧ isBlank (l.drop (runEnd l j)) = true
          · simp only [if_pos ha]
          · simp only [if_neg ha]
            exact ih l (runEnd l j)
        · simp only [if_neg hc]
          exact ih l (j + 1)
      · simp only [scanLoopO, scanLoopC, dif_neg hj]
  intro l j
  rw [scanOpen, scanContinue]
  exact h (l.length + 1) l j

/-- Claim C2, counterexample: `C = "$x"` contains no blank-terminated fence
run, yet on the input line `$$$x$$` (entry column 0, nothing after the
trailing fence) the single appended span covers offsets `[3, 4)`, whose text
is `x`, not `C`: the greedy opening-run count absorbs the leading `$` of
`C`. -/
theorem open_sameline_cex :
    (∀ q, q < 2 → ¬ goodRun ['$', 'x'] q) ∧
    Open ['$', '$', '$', 'x', '$', '$'] ⟨0, 6, 0⟩ 0 none =
      (some [⟨3, 4, 0⟩], PState.close, none) ∧
    List.take (4 - 3) (List.drop 3 ['$', '$', '$', 'x', '$', '$']) = ['x'] ∧
    (['x'] : List Char) ≠ ['$', 'x'] :=
  ⟨by decide, by decide, by decide, by decide⟩

/-- Claim C2 (amended): for every input line `$$C$$` (entry column 0, nothing
after the trailing fence) where `C` is nonempty, neither starts nor ends with
the fence character, and contains no blank-terminated fence run, `Open`
classifies the block as same-line and appends exactly one span covering
offsets `[seg.start + 2, seg.start + 2 + C.length)`, whose text — the line
bytes after the opening fence, taken up to the closing fence — is exactly
`C`. -/
theorem open_sameline_payload (C : List Char) (seg : Segment) (ctx : Option MathBlockData)
    (hne : C ≠ []) (hhead : C[0]? ≠ some '$') (hlast : C[C.length - 1]? ≠ some '$')
    (hnofence : ∀ q, q < C.length → ¬ goodRun C q) :
    Open (['$', '$'] ++ C ++ ['$', '$']) seg 0 ctx =
      (some [⟨seg.start + 2, seg.start + 2 + C.length, 0⟩], PState.close, ctx) ∧
    List.take C.length (List.drop 2 (['$', '$'] ++ C ++ ['$', '$'])) = C := by
  obtain ⟨c, C0, rfl⟩ := List.exists_cons_of_ne_nil hne
  have hc : c ≠ '$' := by
    intro he
    exact hhead (by simp [he])
  have hrun : runEnd (['$', '$'] ++ (c :: C0) ++ ['$', '$']) 0 = 2 := by
    simp [runEnd, dollarRun, hc]
  have hdrop : (['$', '$'] ++ (c :: C0) ++ ['$', '$']).drop 2 = (c :: C0) ++ ['$', '$'] := rfl
  have hscan : scanOpen ((c :: C0) ++ ['$', '$']) 0 = some (c :: C0).length :=
    scanOpen_append_fence (c :: C0) (by simp) hlast
  have hg2 : ¬ (((['$', '$'] ++ (c :: C0) ++ ['$', '$']).length : Int) ≤ 0 ∨
      (['$', '$'] ++ (c :: C0) ++ ['$', '$']).getD 0 ' ' ≠ '$') := by
    push_neg
    constructor
    · have h0 : 0 < (['$', '$'] ++ (c :: C0) ++ ['$', '$']).length := by simp
      exact_mod_cast h0
    · rfl
  constructor
  · simp only [Open, Int.toNat_zero]
    rw [if_neg hg2, hrun]
    rw [if_neg (by decide : ¬ (2 - 0 < 2))]
    rw [hdrop]
    simp only [hscan]
    rw [if_pos (by exact_mod_cast List.length_pos.mpr (List.cons_ne_nil c C0) :
      (0 : Int) < ((c :: C0).length : Int))]
    simp only [Int.toNat_natCast]
    rw [List.take_left]
    rw [if_pos (List.length_pos.mpr (List.cons_ne_nil c C0))]
    rw [if_neg (by decide : ¬ (0 : Int) = -1)]
  · rw [hdrop, List.take_left]

theorem open_sameline_payload_witness :
    (∀ q, q < (['x', '+', 'y'] : List Char).length → ¬ goodRun ['x', '+', 'y'] q) ∧
    Open (['$', '$'] ++ ['x', '+', 'y'] ++ ['$', '$']) ⟨0, 7, 0⟩ 0 none =
      (some [⟨0 + 2, 0 + 2 + (['x', '+', 'y'] : List Char).length, 0⟩],
       PState.close, none) :=
  ⟨by decide,
   (open_sameline_payload ['x', '+', 'y'] ⟨0, 7, 0⟩ none (by decide) (by decide)
      (by decide) (by decide)).1⟩

/-- Claim C3, counterexample: on the continuation line `␣␣$$` (two spaces,
then a fence) of a block opened at indent 0, the whole-line rescan finds the
blank-terminated run at position 2, which lies after the dedented start 0, so
the claim requires a span to be appended; but the block is closed by the
start-of-line check and the span list stays empty. -/
theorem continue_rescan_cex :
    scanContinue [' ', ' ', '$', '$'] 0 = some 2 ∧
    (DedentPosition [' ', ' ', '$', '$'] 0 0).1 = 0 ∧
    Continue [] [' ', ' ', '$', '$'] ⟨0, 4, 0⟩ (some ⟨0⟩) =
      ⟨PState.close, [], 4, none, some ⟨0⟩⟩ :=
  ⟨by decide, by decide, by decide⟩

/-- Claim C3 (amended): for every continuation line (state present) on which
the start-of-line closing check does not fire, `Continue` rescans the entire
line for a run of ≥ 2 fence characters followed only by blank content; if one
is found at `cp`, the block closes on this line (reader advanced past it) and
a span from the dedented start to `cp` is appended if and only if `cp` lies
after the dedented start. -/
theorem continue_rescan_close (node : List Segment) (line : List Char) (seg : Segment)
    (data : MathBlockData) (cp : Nat)
    (hg : ¬ ((IndentWidth line 0).1 < 4 ∧
      2 ≤ runEnd line (IndentWidth line 0).2 - (IndentWidth line 0).2 ∧
      isBlank (line.drop (runEnd line (IndentWidth line 0).2)) = true))
    (hs : scanContinue line 0 = some cp) :
    Continue node line seg (some data) =
      ⟨PState.close,
       if (DedentPosition line 0 data.indent).1 < cp then
         node ++ [⟨seg.start + (DedentPosition line 0 data.indent).1,
                   seg.start + cp, (DedentPosition line 0 data.indent).2⟩]
       else node,
       seg.stop - seg.start - seg.padding, none, some data⟩ := by
  simp only [Continue, hs]
  rw [if_neg hg, if_pos (Int.natCast_nonneg cp)]
  simp only [Int.toNat_natCast, Nat.cast_lt]

theorem continue_rescan_close_witness :
    Continue [] ['x', ' ', '$', '$'] ⟨0, 4, 0⟩ (some ⟨0⟩) =
      ⟨PState.close, [⟨0, 2, 0⟩], 4, none, some ⟨0⟩⟩ := by
  rw [continue_rescan_close [] ['x', ' ', '$', '$'] ⟨0, 4, 0⟩ ⟨0⟩ 2 (by decide) (by decide)]
  decide

/-- Claim C7: no span appended to the node ever includes a byte of the
opening fence run.  Spans appended by `Open` start exactly at the end of the
opening run, `seg.start + runEnd line pos.toNat`; spans appended by `Continue`
start at or after that continuation line's segment start, which under the host
protocol lies at or after the end `e` of the opening line's fence run. -/
theorem spans_exclude_opening_fence :
    (∀ (line : List Char) (seg : Segment) (pos : Int) (ctx : Option MathBlockData)
        (s : Segment), s ∈ ((Open line seg pos ctx).1.getD []) →
          seg.start + runEnd line pos.toNat ≤ s.start) ∧
    (∀ (node : List Segment) (line : List Char) (seg : Segment)
        (ctx : Option MathBlockData) (e : Nat) (s : Segment), e ≤ seg.start →
          s ∈ (Continue node line seg ctx).lines → s ∈ node ∨ e ≤ s.start) := by
  constructor
  · intro line seg pos ctx s hs
    simp only [Open] at hs
    split at hs
    · simp at hs
    · split at hs
      · simp at hs
      · split at hs
        · simp at hs
        · split at hs
          · simp only [Option.getD_some] at hs
            split at hs
            · rw [List.mem_singleton] at hs
              subst hs
              exact le_refl _
            · simp at hs
          · simp only [Option.getD_some] at hs
            split at hs
            · rw [List.mem_singleton] at hs
              subst hs
              exact le_refl _
            · simp at hs
  · intro node line seg ctx e s he hs
    cases ctx with
    | none =>
      simp only [Continue] at hs
      exact Or.inl hs
    | some data =>
      simp only [Continue] at hs
      split at hs
      · exact Or.inl hs
      · split at hs
        · split at hs
          · rw [List.mem_append] at hs
            rcases hs with hs | hs
            · exact Or.inl hs
            · rw [List.mem_singleton] at hs
              subst hs
              exact Or.inr (by simp; omega)
          · exact Or.inl hs
        · rw [List.mem_append] at hs
          rcases hs with hs | hs
          · exact Or.inl hs
          · rw [List.mem_singleton] at hs
            subst hs
            exact Or.inr (by simp; omega)

theorem spans_exclude_opening_fence_witness :
    (0 + runEnd ['$', '$', 'x', '$', '$'] (Int.toNat 0) ≤ 2) ∧
    ((⟨5, 7, 0⟩ : Segment) ∈ ([] : List Segment) ∨ 3 ≤ 5) :=
  ⟨spans_exclude_opening_fence.1 ['$', '$', 'x', '$', '$'] ⟨0, 5, 0⟩ 0 none ⟨2, 3, 0⟩
      (by decide),
   spans_exclude_opening_fence.2 [] ['a', '\n'] ⟨5, 7, 0⟩ (some ⟨0⟩) 3 ⟨5, 7, 0⟩
      (by decide) (by decide)⟩

end Mathjax
